import Mathlib

/-!
# Shallow embedding of the DelayBot time-expression validator

This file embeds `DelayBot.get_time` from `src/DelayBot.py` and proves
properties of it.  Tokens are modelled as `List Char`; Python's
`str.upper` is `Char.toUpper` (both only map ASCII `a`-`z`).

The Python validator keeps one piece of mutable state that `get_time`
writes: `self.clockLimits` is initialised to `[23, 59, 59]` and the
statement `self.clockLimits[0] = 12` (executed whenever a non-empty
meridiem suffix is accepted) is never undone.  Indices 1 and 2 are never
written.  We therefore carry the current value of `clockLimits[0]` as an
explicit state parameter `st : Nat` (initially `23`) and `get_time`
returns the updated value alongside its verdict.

Each `return False` site in `get_time` is preceded by a distinct
diagnostic `print`; the `Verdict` type has one constructor per such
site, plus `valid` for `return True`.
-/

namespace DelayBot

/-- One constructor per exit of `get_time`: `valid` for `return True`,
and one constructor for each `print`/`return False` site. -/
inductive Verdict where
  /-- `return True` -/
  | valid
  /-- "not a valid format!" -/
  | notAFormat
  /-- "You defined a time twice!" -/
  | duplicateUnit
  /-- "Value is too high!" (block branch) -/
  | blockTooHigh
  /-- "%s is not a merdiem" -/
  | invalidMeridiem
  /-- "Missing Values!" -/
  | missingValues
  /-- "Non-numeric value!" -/
  | nonNumeric
  /-- "Value too high %s, %s, %s!" (clock branch) -/
  | clockTooHigh
deriving DecidableEq

/-- The character class `[HMDS]` of the block regular expression. -/
def isUnitChar (c : Char) : Bool :=
  c = 'H' || c = 'M' || c = 'D' || c = 'S'

/-- `self.blockLimits = {'D': 1, 'H': 24, 'M': 60, 'S': 60}`.  The
Python dict is only ever indexed with characters produced by the block
regular expression, i.e. members of `[HMDS]`; the final catch-all `0`
is never reached. -/
def blockLimits (c : Char) : Nat :=
  if c = 'D' then 1
  else if c = 'H' then 24
  else if c = 'M' then 60
  else if c = 'S' then 60
  else 0

/-- `self.meridiems = set(["AM", 'PM', "A.M.", "P.M.", ""])`. -/
def meridiems : List (List Char) :=
  [['A', 'M'], ['P', 'M'], ['A', '.', 'M', '.'], ['P', '.', 'M', '.'], []]

/-- Python `int` on a string of decimal digits. -/
def digitsVal (ds : List Char) : Nat :=
  ds.foldl (fun n c => 10 * n + (c.toNat - 48)) 0

/-- Python 2 `str.isdigit`: true iff the string is non-empty and all its
characters are decimal digits. -/
def pyIsDigit (s : List Char) : Bool :=
  !s.isEmpty && s.all Char.isDigit

/-- One step of the block pattern `[0-9]{1,2}[HMDS]{1}`: consume one
group at the front, returning `(digits, unit)` and the rest.  The
greedy `{1,2}` is deterministic here: after two digits the next
character must be a unit letter and cannot itself be a digit, and
backtracking to one digit would require the second digit to be a unit
letter, which is impossible; so the decomposition of a matching string
is unique. -/
def parseGroup : List Char → Option ((List Char × Char) × List Char)
  | [] => none
  | c :: cs =>
    if c.isDigit then
      match cs with
      | [] => none
      | d :: cs2 =>
        if d.isDigit then
          match cs2 with
          | [] => none
          | u :: cs3 => if isUnitChar u then some (([c, d], u), cs3) else none
        else if isUnitChar d then some (([c], d), cs2) else none
    else none

/-- Iterate `parseGroup` at most `fuel` times, requiring the whole
input to be consumed (the pattern is anchored `^...$`). -/
def parseGroupsAux : Nat → List Char → Option (List (List Char × Char))
  | _, [] => some []
  | 0, _ :: _ => none
  | fuel + 1, c :: cs =>
    match parseGroup (c :: cs) with
    | none => none
    | some (g, rest) =>
      match parseGroupsAux fuel rest with
      | none => none
      | some gs => some (g :: gs)

/-- `self.blockRegexpMatch.match(arg)` together with the field
extraction `self.blockRegexpFind.findall(arg)`: the anchored pattern
`^([0-9]{1,2}[HMDS]{1}){1,4}$` matches iff the token decomposes into
one to four groups, and on a matching token `findall` returns exactly
the groups of that (unique) decomposition.  In Python's `re`, `$` also
matches just before a trailing newline, hence the `dropLast` case. -/
def blockMatch (cs : List Char) : Option (List (List Char × Char)) :=
  let core := if cs.getLast? = some '\n' then cs.dropLast else cs
  match core with
  | [] => none
  | _ :: _ => parseGroupsAux 4 core

/-- Render a list of `(digits, unit)` groups back into a block token:
the inverse of the field extraction, used to quantify over block
tokens in specifications. -/
def renderBlock : List (List Char × Char) → List Char
  | [] => []
  | (ds, u) :: rest => ds ++ u :: renderBlock rest

/-- A well-formed `(digits, unit)` group as produced by the block
pattern: one or two digit characters followed by a unit letter. -/
@[reducible]
def groupWF (g : List Char × Char) : Prop :=
  (g.1.length = 1 ∨ g.1.length = 2) ∧ g.1.all Char.isDigit = true ∧ isUnitChar g.2 = true

/-- Python `arg.split(":")`. -/
def splitCols : List Char → List (List Char)
  | [] => [[]]
  | c :: cs =>
    let r := splitCols cs
    if c = ':' then [] :: r
    else (c :: r.headD []) :: r.tail

/-- Join segments with `':'`: the left inverse of `splitCols`, used to
build clock tokens from their segments in specifications. -/
def joinCols : List (List Char) → List Char
  | [] => []
  | [s] => s
  | s :: t :: rest => s ++ ':' :: joinCols (t :: rest)

/-- The characters the block pattern `[0-9]{1,2}[HMDS]` can consume. -/
def goodChar (c : Char) : Bool :=
  c.isDigit || isUnitChar c

/-- The block-branch loop of `get_time`: scan the extracted
`(digits, unit)` groups left to right with the `tally` list of units
seen so far; per group, the duplicate check comes before the magnitude
check. -/
def validateBlock : List (List Char × Char) → List Char → Verdict
  | [], _ => .valid
  | (ds, u) :: rest, tally =>
    if u ∈ tally then .duplicateUnit
    else if digitsVal ds > blockLimits u then .blockTooHigh
    else validateBlock rest (tally ++ [u])

/-- The clock-branch loop of `get_time`: each segment must be all
digits (`isdigit`) and its value at most the positional limit.  The
caller guarantees there are no more segments than limits, so the
second case is never reached. -/
def checkSegs : List (List Char) → List Nat → Verdict
  | [], _ => .valid
  | _ :: _, [] => .valid
  | v :: rest, l :: ls =>
    if !pyIsDigit v then .nonNumeric
    else if digitsVal v > l then .clockTooHigh
    else checkSegs rest ls

/-- The clock branch of `get_time`, applied to `arg.split(":")`: read
the meridiem candidate off the last segment (everything after its
first two characters), reject an unrecognised candidate, set
`clockLimits[0]` to 12 on a non-empty accepted candidate, truncate the
last segment to its first two characters, check the segment count,
then run the per-segment numeric/range loop. -/
def clockBranch (st : Nat) (segs : List (List Char)) : Verdict × Nat :=
  let lastSeg := segs.getLastD []
  let ending := lastSeg.drop 2
  if ending ∈ meridiems then
    let st' := if ending ≠ [] then 12 else st
    let segs' := segs.dropLast ++ [lastSeg.take 2]
    if segs'.length = 2 ∨ segs'.length = 3 then
      (checkSegs segs' [st', 59, 59], st')
    else (.missingValues, st')
  else (.invalidMeridiem, st)

/-- `get_time` after the initial `arg = arg.upper()`: classify as
block / clock / unrecognised, then validate.  `st` is the current
value of `self.clockLimits[0]`. -/
def getTimeU (st : Nat) (a : List Char) : Verdict × Nat :=
  match blockMatch a with
  | some groups => (validateBlock groups [], st)
  | none =>
    if ':' ∈ a then clockBranch st (splitCols a)
    else (.notAFormat, st)

/-- `DelayBot.get_time(self, arg)`.  Input state `st` is the current
`self.clockLimits[0]` (23 on a freshly constructed bot); the result
pairs the verdict with the new `self.clockLimits[0]`. -/
def get_time (st : Nat) (arg : List Char) : Verdict × Nat :=
  getTimeU st (arg.map Char.toUpper)

/-- Notational helper: a token from a string literal. -/
def tok (s : String) : List Char :=
  s.toList

/-! ## Character-level lemmas -/

theorem toNat_ofNat_valid {n : Nat} (h : n.isValidChar) : (Char.ofNat n).toNat = n := by
  rw [Char.ofNat, dif_pos h]
  rfl

theorem toUpper_idem (c : Char) : c.toUpper.toUpper = c.toUpper := by
  unfold Char.toUpper
  by_cases h : 97 ≤ c.toNat ∧ c.toNat ≤ 122
  · rw [if_pos h]
    have hv : (c.toNat - 32).isValidChar := Or.inl (by omega)
    rw [toNat_ofNat_valid hv, if_neg (by omega)]
  · rw [if_neg h, if_neg h]

theorem toUpper_of_not_lower {c : Char} (h : ¬ (97 ≤ c.toNat ∧ c.toNat ≤ 122)) :
    c.toUpper = c := by
  unfold Char.toUpper
  rw [if_neg h]

theorem isDigit_toNat {c : Char} (h : c.isDigit = true) : 48 ≤ c.toNat ∧ c.toNat ≤ 57 := by
  simp [Char.isDigit] at h
  exact ⟨h.1, h.2⟩

theorem toUpper_of_isDigit {c : Char} (h : c.isDigit = true) : c.toUpper = c := by
  have h2 := isDigit_toNat h
  exact toUpper_of_not_lower (by omega)

theorem upper_upper (l : List Char) :
    (l.map Char.toUpper).map Char.toUpper = l.map Char.toUpper := by
  rw [List.map_map]
  exact List.map_congr_left fun c _ => toUpper_idem c

example : get_time 23 (tok "1D24H60M60S") = (.valid, 23) := by decide
example : get_time 23 (tok "23:59") = (.valid, 23) := by decide
example : get_time 23 (tok "23:59:59") = (.valid, 23) := by decide
example : get_time 23 (tok "12:59AM") = (.valid, 12) := by decide
example : get_time 23 (tok "13:00PM") = (.clockTooHigh, 12) := by decide
example : get_time 23 (tok "12:59XM") = (.invalidMeridiem, 23) := by decide
example : get_time 23 (tok "hello") = (.notAFormat, 23) := by decide
example : get_time 23 (tok "24:00") = (.clockTooHigh, 23) := by decide
example : get_time 23 (tok "00:60") = (.clockTooHigh, 23) := by decide
example : get_time 23 (tok "1S1S") = (.duplicateUnit, 23) := by decide
example : get_time 23 (tok "2D") = (.blockTooHigh, 23) := by decide
example : get_time 23 (tok "1D1D") = (.duplicateUnit, 23) := by decide
example : get_time 23 (tok "1:5") = (.valid, 23) := by decide
example : get_time 23 (tok "9:30") = (.valid, 23) := by decide
example : get_time 23 (tok "12:5PM") = (.invalidMeridiem, 23) := by decide
example : get_time 23 (tok "1:2:3:4:5XM") = (.invalidMeridiem, 23) := by decide
example : get_time 23 (tok "99H1D1D") = (.blockTooHigh, 23) := by decide
example : get_time 12 (tok "23:59") = (.clockTooHigh, 12) := by decide
example : get_time 23 (tok "13:61") = (.clockTooHigh, 23) := by decide
example : get_time 23 (tok "25H") = (.blockTooHigh, 23) := by decide
example : get_time 23 (tok "1D2H3M4S") = (.valid, 23) := by decide
example : get_time 23 (tok "") = (.notAFormat, 23) := by decide
example : get_time 23 (tok "12:59am") = (.valid, 12) := by decide
example : get_time 23 (tok "1d") = (.valid, 23) := by decide

/-! ## Splitting and joining on colons -/

theorem splitCols_ne_nil (l : List Char) : splitCols l ≠ [] := by
  induction l with
  | nil => simp [splitCols]
  | cons c cs ih =>
    simp only [splitCols]
    split <;> simp

theorem length_splitCols (l : List Char) : (splitCols l).length = l.count ':' + 1 := by
  induction l with
  | nil => rfl
  | cons c cs ih =>
    have hne := splitCols_ne_nil cs
    have hlen : 1 ≤ (splitCols cs).length := List.length_pos.mpr hne
    simp only [splitCols]
    by_cases h : c = ':'
    · subst h
      simp [ih, List.count_cons]
    · rw [if_neg h]
      have : (':' : Char) ≠ c := fun hh => h hh.symm
      simp [List.count_cons, h, List.length_tail]
      omega

theorem splitCols_no_colon {l : List Char} (h : ':' ∉ l) : splitCols l = [l] := by
  induction l with
  | nil => rfl
  | cons c cs ih =>
    rw [List.mem_cons] at h
    push_neg at h
    simp only [splitCols]
    rw [if_neg (fun hc => h.1 hc.symm), ih h.2]
    rfl

theorem splitCols_append_colon (a b : List Char) (h : ':' ∉ a) :
    splitCols (a ++ ':' :: b) = a :: splitCols b := by
  induction a with
  | nil => simp [splitCols]
  | cons c cs ih =>
    rw [List.mem_cons] at h
    push_neg at h
    rw [List.cons_append]
    simp only [splitCols]
    rw [if_neg (fun hc => h.1 hc.symm), ih h.2]
    rfl

theorem splitCols_joinCols :
    ∀ segs : List (List Char), segs ≠ [] → (∀ s ∈ segs, ':' ∉ s) →
      splitCols (joinCols segs) = segs
  | [], h, _ => absurd rfl h
  | [s], _, hs => by
    rw [joinCols, splitCols_no_colon (hs s (by simp))]
  | s :: t :: rest, _, hs => by
    rw [joinCols, splitCols_append_colon _ _ (hs s (by simp)),
      splitCols_joinCols (t :: rest) (by simp) (fun x hx => hs x (List.mem_cons_of_mem _ hx))]

theorem colon_mem_joinCols : ∀ {segs : List (List Char)}, 2 ≤ segs.length → ':' ∈ joinCols segs
  | [], h => by simp at h
  | [_], h => by simp at h
  | s :: t :: rest, _ => by
    rw [joinCols]
    exact List.mem_append_right _ (List.mem_cons_self _ _)

theorem mem_joinCols :
    ∀ {segs : List (List Char)} {c : Char}, c ∈ joinCols segs → c = ':' ∨ ∃ s ∈ segs, c ∈ s
  | [], _, h => by simp [joinCols] at h
  | [s], c, h => by
    rw [joinCols] at h
    exact Or.inr ⟨s, by simp, h⟩
  | s :: t :: rest, c, h => by
    rw [joinCols, List.mem_append, List.mem_cons] at h
    rcases h with h | h | h
    · exact Or.inr ⟨s, by simp, h⟩
    · exact Or.inl h
    · rcases mem_joinCols h with h | ⟨x, hx, hcx⟩
      · exact Or.inl h
      · exact Or.inr ⟨x, List.mem_cons_of_mem _ hx, hcx⟩

theorem map_toUpper_id {s : List Char} (h : ∀ c ∈ s, c.toUpper = c) :
    s.map Char.toUpper = s := by
  induction s with
  | nil => rfl
  | cons c cs ih =>
    simp only [List.map_cons, h c (by simp), ih (fun x hx => h x (List.mem_cons_of_mem _ hx))]

/-! ## Soundness of the block-pattern parser -/

theorem parseGroup_sound {cs : List Char} {g : List Char × Char} {rest : List Char}
    (h : parseGroup cs = some (g, rest)) :
    cs = g.1 ++ g.2 :: rest ∧ (g.1.length = 1 ∨ g.1.length = 2) ∧
      g.1.all Char.isDigit ∧ isUnitChar g.2 = true := by
  cases cs with
  | nil => simp [parseGroup] at h
  | cons c cs1 =>
    simp only [parseGroup] at h
    by_cases hc : c.isDigit
    · rw [if_pos hc] at h
      cases cs1 with
      | nil => simp at h
      | cons d cs2 =>
        dsimp only at h
        by_cases hd : d.isDigit
        · rw [if_pos hd] at h
          cases cs2 with
          | nil => simp at h
          | cons u cs3 =>
            dsimp only at h
            by_cases hu : isUnitChar u
            · rw [if_pos hu] at h
              injection h with h1
              injection h1 with hg hr
              subst hg
              subst hr
              simp [hc, hd, hu]
            · simp [hu] at h
        · rw [if_neg hd] at h
          by_cases hu : isUnitChar d
          · rw [if_pos hu] at h
            injection h with h1
            injection h1 with hg hr
            subst hg
            subst hr
            simp [hc, hu]
          · simp [hu] at h
    · simp [hc] at h

theorem parseGroupsAux_chars :
    ∀ (n : Nat) (cs : List Char) (gs : List (List Char × Char)),
      parseGroupsAux n cs = some gs → ∀ c ∈ cs, goodChar c = true := by
  intro n
  induction n with
  | zero =>
    intro cs gs h c hc
    cases cs with
    | nil => simp at hc
    | cons c0 cs0 => simp [parseGroupsAux] at h
  | succ n ih =>
    intro cs gs h c hc
    cases cs with
    | nil => simp at hc
    | cons c0 cs0 =>
      simp only [parseGroupsAux] at h
      cases hp : parseGroup (c0 :: cs0) with
      | none => rw [hp] at h; simp at h
      | some pr =>
        obtain ⟨g, rest⟩ := pr
        rw [hp] at h
        dsimp only at h
        cases hr : parseGroupsAux n rest with
        | none => rw [hr] at h; simp at h
        | some gs' =>
          obtain ⟨hcs, _, hdig, hunit⟩ := parseGroup_sound hp
          rw [hcs] at hc
          rw [List.mem_append, List.mem_cons] at hc
          rcases hc with hc | hc | hc
          · have := List.all_eq_true.mp hdig c hc
            simp [goodChar, this]
          · subst hc
            simp [goodChar, hunit]
          · exact ih rest gs' hr c hc

theorem mem_dropLast_of_ne_getLast {l : List Char} {a b : Char}
    (hl : l.getLast? = some a) (hb : b ∈ l) (hne : b ≠ a) : b ∈ l.dropLast := by
  obtain ⟨ys, rfl⟩ := List.getLast?_eq_some_iff.mp hl
  rw [List.dropLast_concat]
  rw [List.mem_append, List.mem_singleton] at hb
  rcases hb with hb | hb
  · exact hb
  · exact absurd hb hne

theorem blockMatch_none_of_colon {cs : List Char} (h : ':' ∈ cs) : blockMatch cs = none := by
  unfold blockMatch
  by_cases hl : cs.getLast? = some '\n'
  · rw [if_pos hl]
    have hc : ':' ∈ cs.dropLast := mem_dropLast_of_ne_getLast hl h (by decide)
    cases hd : cs.dropLast with
    | nil => rw [hd] at hc
    | cons x xs =>
      rw [hd] at hc
      simp only []
      cases hg : parseGroupsAux 4 (x :: xs) with
      | none => rfl
      | some gs =>
        have := parseGroupsAux_chars 4 (x :: xs) gs hg ':' hc
        simp [goodChar, isUnitChar] at this
  · rw [if_neg hl]
    cases hd : cs with
    | nil => rw [hd] at h
    | cons x xs =>
      rw [hd] at h
      simp only []
      cases hg : parseGroupsAux 4 (x :: xs) with
      | none => rfl
      | some gs =>
        have := parseGroupsAux_chars 4 (x :: xs) gs hg ':' h
        simp [goodChar, isUnitChar] at this

/-- Any token that is a join of at least two colon-free segments takes
the clock branch, and `split(":")` recovers exactly those segments. -/
theorem getTimeU_joinCols (st : Nat) (segs : List (List Char)) (h2 : 2 ≤ segs.length)
    (hnc : ∀ s ∈ segs, ':' ∉ s) :
    getTimeU st (joinCols segs) = clockBranch st segs := by
  have hcol := colon_mem_joinCols h2
  unfold getTimeU
  rw [blockMatch_none_of_colon hcol]
  rw [if_pos hcol,
    splitCols_joinCols segs (fun hh => by rw [hh] at h2; simp at h2) hnc]

/-! ## Evaluating the clock branch on well-shaped segment lists -/

theorem not_colon_mem_of_digits {s : List Char} (h : s.all Char.isDigit = true) :
    ':' ∉ s := by
  intro hc
  exact absurd (List.all_eq_true.mp h ':' hc) (by decide)

theorem upper_fixed_of_digits {s : List Char} (h : s.all Char.isDigit = true) :
    s.map Char.toUpper = s :=
  map_toUpper_id fun c hc => toUpper_of_isDigit (List.all_eq_true.mp h c hc)

theorem get_time_of_upper_fixed {st : Nat} {arg : List Char}
    (h : arg.map Char.toUpper = arg) : get_time st arg = getTimeU st arg := by
  unfold get_time
  rw [h]

theorem pyIsDigit_of {s : List Char} (hne : s ≠ []) (hdig : s.all Char.isDigit = true) :
    pyIsDigit s = true := by
  simp [pyIsDigit, hdig, hne]

/-- Evaluate `clockBranch` on a segment list whose final segment is a
two-character (or shorter, when `mer = []`) numeric part followed by a
recognised meridiem candidate. -/
theorem clockBranch_snoc (st : Nat) (init : List (List Char)) (last mer : List Char)
    (hdrop : (last ++ mer).drop 2 = mer) (htake : (last ++ mer).take 2 = last)
    (hmer : mer ∈ meridiems) :
    clockBranch st (init ++ [last ++ mer]) =
      (if (init ++ [last]).length = 2 ∨ (init ++ [last]).length = 3 then
        (checkSegs (init ++ [last]) [if mer ≠ [] then 12 else st, 59, 59],
          if mer ≠ [] then 12 else st)
      else (.missingValues, if mer ≠ [] then 12 else st)) := by
  unfold clockBranch
  simp only [List.getLastD_concat, List.dropLast_concat, hdrop, htake, if_pos hmer]

theorem checkSegs_two {a b : List Char} {l1 l2 : Nat} {ls : List Nat}
    (ha : pyIsDigit a = true) (hb : pyIsDigit b = true)
    (h1 : digitsVal a ≤ l1) (h2 : digitsVal b ≤ l2) :
    checkSegs [a, b] (l1 :: l2 :: ls) = .valid := by
  rw [checkSegs, if_neg (by simp [ha]), if_neg (by omega),
    checkSegs, if_neg (by simp [hb]), if_neg (by omega), checkSegs]

theorem checkSegs_three {a b c : List Char} {l1 l2 l3 : Nat} {ls : List Nat}
    (ha : pyIsDigit a = true) (hb : pyIsDigit b = true) (hc : pyIsDigit c = true)
    (h1 : digitsVal a ≤ l1) (h2 : digitsVal b ≤ l2) (h3 : digitsVal c ≤ l3) :
    checkSegs [a, b, c] (l1 :: l2 :: l3 :: ls) = .valid := by
  rw [checkSegs, if_neg (by simp [ha]), if_neg (by omega)]
  exact checkSegs_two hb hc h2 h3

/-- Clock branch, no meridiem suffix: the hour limit stays `st`. -/
theorem clockBranch_no_mer (st : Nat) (init : List (List Char)) (last : List Char)
    (hlen : last.length ≤ 2) :
    clockBranch st (init ++ [last]) =
      (if (init ++ [last]).length = 2 ∨ (init ++ [last]).length = 3 then
        (checkSegs (init ++ [last]) [st, 59, 59], st)
      else (.missingValues, st)) := by
  have h1 : (last ++ ([] : List Char)).drop 2 = [] := by
    rw [List.append_nil]
    exact List.drop_eq_nil_of_le hlen
  have h2 : (last ++ ([] : List Char)).take 2 = last := by
    rw [List.append_nil]
    exact List.take_of_length_le hlen
  have h3 := clockBranch_snoc st init last [] h1 h2 (by simp [meridiems])
  simpa using h3

/-- Clock branch, non-empty accepted meridiem: the hour limit becomes 12. -/
theorem clockBranch_mer (st : Nat) (init : List (List Char)) (last mer : List Char)
    (hlen : last.length = 2) (hmer : mer ∈ meridiems) (hne : mer ≠ []) :
    clockBranch st (init ++ [last ++ mer]) =
      (if (init ++ [last]).length = 2 ∨ (init ++ [last]).length = 3 then
        (checkSegs (init ++ [last]) [12, 59, 59], 12)
      else (.missingValues, 12)) := by
  have h1 : (last ++ mer).drop 2 = mer := by
    rw [← hlen]
    exact List.drop_left _ _
  have h2 : (last ++ mer).take 2 = last := by
    rw [← hlen]
    exact List.take_left _ _
  have h3 := clockBranch_snoc st init last mer h1 h2 hmer
  rw [h3, if_pos hne]

/-! ## Claim theorems (first batch) -/

/-- C1: the spec claims validation is a pure, stateless function of its
token, so that after validating the meridiem token `"12:59AM"`,
re-validating `"23:59"` still yields Valid.  The code fails this: the
accepted meridiem permanently sets `self.clockLimits[0] = 12`, and the
docstring's proper format `"23:59"` is then rejected, while a freshly
constructed validator accepts it. -/
theorem claim1_not_stateless :
    get_time 23 (tok "12:59AM") = (.valid, 12) ∧
    (get_time 12 (tok "23:59")).1 = Verdict.clockTooHigh ∧
    get_time 23 (tok "23:59") = (.valid, 23) := by
  decide

/-- C7: for every state and every input token (including the empty
one), `get_time` terminates and returns one of the eight verdicts —
`valid` or one of the seven handled-error verdicts — and never
anything else; the empty token is handled as an unrecognised format. -/
theorem claim7_always_returns_verdict (st : Nat) (arg : List Char) :
    (get_time st arg).1 ∈ [Verdict.valid, .notAFormat, .duplicateUnit, .blockTooHigh,
      .invalidMeridiem, .missingValues, .nonNumeric, .clockTooHigh] ∧
    get_time st [] = (.notAFormat, st) := by
  constructor
  · cases h : (get_time st arg).1 <;> simp
  · rfl

/-- C8: validation is case-insensitive: for every state and token, the
result of `get_time` on the token equals its result on the uppercased
token. -/
theorem claim8_case_insensitive (st : Nat) (arg : List Char) :
    get_time st arg = get_time st (arg.map Char.toUpper) := by
  unfold get_time
  rw [upper_upper]

theorem toUpper_colon : Char.toUpper ':' = ':' := by decide

/-- C2: in 24-hour mode (no meridiem suffix), every clock token of
shape `HH:MM` or `HH:MM:SS` with all-digit two-character segments,
hour ≤ 23 and minute/second ≤ 59, is judged Valid on a fresh
validator; the boundary tokens `"24:00"` and `"00:60"` are judged
Invalid (value too high), exceeding the hour limit 23 and the minute
limit 59 respectively. -/
theorem claim2_clock24 :
    (∀ hh mm : List Char, hh.length = 2 → mm.length = 2 →
      hh.all Char.isDigit = true → mm.all Char.isDigit = true →
      digitsVal hh ≤ 23 → digitsVal mm ≤ 59 →
      get_time 23 (hh ++ ':' :: mm) = (.valid, 23)) ∧
    (∀ hh mm ss : List Char, hh.length = 2 → mm.length = 2 → ss.length = 2 →
      hh.all Char.isDigit = true → mm.all Char.isDigit = true → ss.all Char.isDigit = true →
      digitsVal hh ≤ 23 → digitsVal mm ≤ 59 → digitsVal ss ≤ 59 →
      get_time 23 (hh ++ ':' :: mm ++ ':' :: ss) = (.valid, 23)) ∧
    (get_time 23 (tok "24:00")).1 = Verdict.clockTooHigh ∧
    (get_time 23 (tok "00:60")).1 = Verdict.clockTooHigh ∧
    Verdict.clockTooHigh ≠ Verdict.valid := by
  refine ⟨?_, ?_, by decide, by decide, by decide⟩
  · intro hh mm hl1 hl2 hd1 hd2 hv1 hv2
    have hfix : (hh ++ ':' :: mm).map Char.toUpper = hh ++ ':' :: mm := by
      rw [List.map_append, List.map_cons, upper_fixed_of_digits hd1,
        upper_fixed_of_digits hd2, toUpper_colon]
    rw [get_time_of_upper_fixed hfix,
      show hh ++ ':' :: mm = joinCols [hh, mm] from rfl,
      getTimeU_joinCols 23 [hh, mm] (by simp) ?hnc]
    case hnc =>
      intro s hs
      rcases List.mem_cons.mp hs with rfl | hs
      · exact not_colon_mem_of_digits hd1
      · rcases List.mem_cons.mp hs with rfl | hs
        · exact not_colon_mem_of_digits hd2
        · simp at hs
    have hcb := clockBranch_no_mer 23 [hh] mm (by omega)
    simp only [List.cons_append, List.nil_append] at hcb
    rw [hcb, if_pos (by simp),
      checkSegs_two (pyIsDigit_of (List.length_pos.mp (by omega)) hd1)
        (pyIsDigit_of (List.length_pos.mp (by omega)) hd2) hv1 hv2]
  · intro hh mm ss hl1 hl2 hl3 hd1 hd2 hd3 hv1 hv2 hv3
    have hfix : (hh ++ ':' :: mm ++ ':' :: ss).map Char.toUpper =
        hh ++ ':' :: mm ++ ':' :: ss := by
      rw [List.map_append, List.map_cons, List.map_append, List.map_cons,
        upper_fixed_of_digits hd1, upper_fixed_of_digits hd2,
        upper_fixed_of_digits hd3, toUpper_colon]
    rw [get_time_of_upper_fixed hfix,
      show hh ++ ':' :: mm ++ ':' :: ss = joinCols [hh, mm, ss] by
        rw [joinCols, joinCols, joinCols]
        simp [List.append_assoc],
      getTimeU_joinCols 23 [hh, mm, ss] (by simp) ?hnc3]
    case hnc3 =>
      intro s hs
      rcases List.mem_cons.mp hs with rfl | hs
      · exact not_colon_mem_of_digits hd1
      · rcases List.mem_cons.mp hs with rfl | hs
        · exact not_colon_mem_of_digits hd2
        · rcases List.mem_cons.mp hs with rfl | hs
          · exact not_colon_mem_of_digits hd3
          · simp at hs
    have hcb := clockBranch_no_mer 23 [hh, mm] ss (by omega)
    simp only [List.cons_append, List.nil_append] at hcb
    rw [hcb, if_pos (by simp),
      checkSegs_three (pyIsDigit_of (List.length_pos.mp (by omega)) hd1)
        (pyIsDigit_of (List.length_pos.mp (by omega)) hd2)
        (pyIsDigit_of (List.length_pos.mp (by omega)) hd3) hv1 hv2 hv3]

/-- C2 witness: the general parts of `claim2_clock24` applied to the
concrete tokens `"23:59"` and `"23:59:59"`. -/
theorem claim2_clock24_witness :
    get_time 23 (tok "23:59") = (.valid, 23) ∧
    get_time 23 (tok "23:59:59") = (.valid, 23) :=
  ⟨claim2_clock24.1 ['2', '3'] ['5', '9'] (by decide) (by decide) (by decide)
      (by decide) (by decide) (by decide),
    claim2_clock24.2.1 ['2', '3'] ['5', '9'] ['5', '9'] (by decide) (by decide)
      (by decide) (by decide) (by decide) (by decide) (by decide) (by decide) (by decide)⟩

theorem meridiem_no_colon {mer : List Char} (h : mer ∈ meridiems) : ':' ∉ mer := by
  simp only [meridiems, List.mem_cons] at h
  rcases h with rfl | rfl | rfl | rfl | h
  · decide
  · decide
  · decide
  · decide
  · simp at h
    subst h
    decide

/-- C5: every clock token of shape `HH:MM` or `HH:MM:SS` carrying a
trailing meridiem marker that uppercases to a recognised one (`AM`,
`PM`, `A.M.`, `P.M.`), with all-digit two-character numeric segments,
hour ≤ 12 and minute/second ≤ 59, is judged Valid in 12-hour mode (the
hour limit becomes 12); with a marker present an hour above 12 is
rejected: `"13:00PM"` is judged Invalid (value too high). -/
theorem claim5_clock12 :
    (∀ hh mm mer : List Char, hh.length = 2 → mm.length = 2 →
      hh.all Char.isDigit = true → mm.all Char.isDigit = true →
      mer.map Char.toUpper ∈ meridiems → mer ≠ [] →
      digitsVal hh ≤ 12 → digitsVal mm ≤ 59 →
      get_time 23 (hh ++ ':' :: (mm ++ mer)) = (.valid, 12)) ∧
    (∀ hh mm ss mer : List Char, hh.length = 2 → mm.length = 2 → ss.length = 2 →
      hh.all Char.isDigit = true → mm.all Char.isDigit = true → ss.all Char.isDigit = true →
      mer.map Char.toUpper ∈ meridiems → mer ≠ [] →
      digitsVal hh ≤ 12 → digitsVal mm ≤ 59 → digitsVal ss ≤ 59 →
      get_time 23 (hh ++ ':' :: mm ++ ':' :: (ss ++ mer)) = (.valid, 12)) ∧
    (get_time 23 (tok "13:00PM")).1 = Verdict.clockTooHigh ∧
    Verdict.clockTooHigh ≠ Verdict.valid := by
  refine ⟨?_, ?_, by decide, by decide⟩
  · intro hh mm mer hl1 hl2 hd1 hd2 hmer hne hv1 hv2
    have hneU : mer.map Char.toUpper ≠ [] := by
      simp only [ne_eq, List.map_eq_nil_iff]
      exact hne
    unfold get_time
    rw [show (hh ++ ':' :: (mm ++ mer)).map Char.toUpper =
        hh ++ ':' :: (mm ++ mer.map Char.toUpper) by
      rw [List.map_append, List.map_cons, List.map_append,
        upper_fixed_of_digits hd1, upper_fixed_of_digits hd2, toUpper_colon]]
    rw [show hh ++ ':' :: (mm ++ mer.map Char.toUpper) =
        joinCols [hh, mm ++ mer.map Char.toUpper] from rfl]
    rw [getTimeU_joinCols 23 [hh, mm ++ mer.map Char.toUpper] (by simp) ?hnc5]
    case hnc5 =>
      intro s hs
      rcases List.mem_cons.mp hs with rfl | hs
      · exact not_colon_mem_of_digits hd1
      · rcases List.mem_cons.mp hs with rfl | hs
        · intro hc
          rcases List.mem_append.mp hc with hc | hc
          · exact not_colon_mem_of_digits hd2 hc
          · exact meridiem_no_colon hmer hc
        · simp at hs
    have hcb := clockBranch_mer 23 [hh] mm (mer.map Char.toUpper) hl2 hmer hneU
    simp only [List.cons_append, List.nil_append] at hcb
    rw [hcb, if_pos (by simp),
      checkSegs_two (pyIsDigit_of (List.length_pos.mp (by omega)) hd1)
        (pyIsDigit_of (List.length_pos.mp (by omega)) hd2) hv1 hv2]
  · intro hh mm ss mer hl1 hl2 hl3 hd1 hd2 hd3 hmer hne hv1 hv2 hv3
    have hneU : mer.map Char.toUpper ≠ [] := by
      simp only [ne_eq, List.map_eq_nil_iff]
      exact hne
    unfold get_time
    rw [show (hh ++ ':' :: mm ++ ':' :: (ss ++ mer)).map Char.toUpper =
        hh ++ ':' :: mm ++ ':' :: (ss ++ mer.map Char.toUpper) by
      rw [List.map_append, List.map_cons, List.map_append, List.map_cons, List.map_append,
        upper_fixed_of_digits hd1, upper_fixed_of_digits hd2,
        upper_fixed_of_digits hd3, toUpper_colon]]
    rw [show hh ++ ':' :: mm ++ ':' :: (ss ++ mer.map Char.toUpper) =
        joinCols [hh, mm, ss ++ mer.map Char.toUpper] by
      rw [joinCols, joinCols, joinCols]
      simp [List.append_assoc]]
    rw [getTimeU_joinCols 23 [hh, mm, ss ++ mer.map Char.toUpper] (by simp) ?hnc6]
    case hnc6 =>
      intro s hs
      rcases List.mem_cons.mp hs with rfl | hs
      · exact not_colon_mem_of_digits hd1
      · rcases List.mem_cons.mp hs with rfl | hs
        · exact not_colon_mem_of_digits hd2
        · rcases List.mem_cons.mp hs with rfl | hs
          · intro hc
            rcases List.mem_append.mp hc with hc | hc
            · exact not_colon_mem_of_digits hd3 hc
            · exact meridiem_no_colon hmer hc
          · simp at hs
    have hcb := clockBranch_mer 23 [hh, mm] ss (mer.map Char.toUpper) hl3 hmer hneU
    simp only [List.cons_append, List.nil_append] at hcb
    rw [hcb, if_pos (by simp),
      checkSegs_three (pyIsDigit_of (List.length_pos.mp (by omega)) hd1)
        (pyIsDigit_of (List.length_pos.mp (by omega)) hd2)
        (pyIsDigit_of (List.length_pos.mp (by omega)) hd3) hv1 hv2 hv3]

/-- C5 witness: `claim5_clock12` applied to `"12:59AM"`, to the
lowercase-suffix `"12:59pm"`, and to `"12:59:59PM"`. -/
theorem claim5_clock12_witness :
    get_time 23 (tok "12:59AM") = (.valid, 12) ∧
    get_time 23 (tok "12:59pm") = (.valid, 12) ∧
    get_time 23 (tok "12:59:59PM") = (.valid, 12) :=
  ⟨claim5_clock12.1 ['1', '2'] ['5', '9'] ['A', 'M'] (by decide) (by decide) (by decide)
      (by decide) (by decide) (by decide) (by decide) (by decide),
    claim5_clock12.1 ['1', '2'] ['5', '9'] ['p', 'm'] (by decide) (by decide) (by decide)
      (by decide) (by decide) (by decide) (by decide) (by decide),
    claim5_clock12.2.1 ['1', '2'] ['5', '9'] ['5', '9'] ['P', 'M'] (by decide) (by decide)
      (by decide) (by decide) (by decide) (by decide) (by decide) (by decide) (by decide)
      (by decide) (by decide)⟩

/-- C9: clock segments are not required to be two digits wide: any
all-digit hour segment and any all-digit final segment of at most two
characters pass when their values are within the positional limits, so
`"1:5"` and `"9:30"` are Valid in 24-hour mode; but only the
characters beyond the first two of the final segment count as the
meridiem candidate, so `"12:5PM"` is rejected with InvalidMeridiem
(candidate `"M"`). -/
theorem claim9_short_segments :
    (∀ hh mm : List Char, hh ≠ [] → mm ≠ [] → mm.length ≤ 2 →
      hh.all Char.isDigit = true → mm.all Char.isDigit = true →
      digitsVal hh ≤ 23 → digitsVal mm ≤ 59 →
      get_time 23 (hh ++ ':' :: mm) = (.valid, 23)) ∧
    get_time 23 (tok "1:5") = (.valid, 23) ∧
    get_time 23 (tok "9:30") = (.valid, 23) ∧
    (get_time 23 (tok "12:5PM")).1 = Verdict.invalidMeridiem ∧
    Verdict.invalidMeridiem ≠ Verdict.valid := by
  refine ⟨?_, by decide, by decide, by decide, by decide⟩
  intro hh mm hne1 hne2 hl2 hd1 hd2 hv1 hv2
  have hfix : (hh ++ ':' :: mm).map Char.toUpper = hh ++ ':' :: mm := by
    rw [List.map_append, List.map_cons, upper_fixed_of_digits hd1,
      upper_fixed_of_digits hd2, toUpper_colon]
  rw [get_time_of_upper_fixed hfix,
    show hh ++ ':' :: mm = joinCols [hh, mm] from rfl,
    getTimeU_joinCols 23 [hh, mm] (by simp) ?hnc9]
  case hnc9 =>
    intro s hs
    rcases List.mem_cons.mp hs with rfl | hs
    · exact not_colon_mem_of_digits hd1
    · rcases List.mem_cons.mp hs with rfl | hs
      · exact not_colon_mem_of_digits hd2
      · simp at hs
  have hcb := clockBranch_no_mer 23 [hh] mm hl2
  simp only [List.cons_append, List.nil_append] at hcb
  rw [hcb, if_pos (by simp),
    checkSegs_two (pyIsDigit_of hne1 hd1) (pyIsDigit_of hne2 hd2) hv1 hv2]

/-- C9 witness: the general part of `claim9_short_segments` applied to
the one-digit-segment token `"1:5"`. -/
theorem claim9_short_segments_witness :
    get_time 23 (tok "1:5") = (.valid, 23) :=
  claim9_short_segments.1 ['1'] ['5'] (by decide) (by decide) (by decide) (by decide)
    (by decide) (by decide) (by decide)

/-- C6: for every token that is classified as clock (it fails the
block pattern but contains a colon after uppercasing), the characters
of the final colon-separated segment beyond its first two form the
meridiem candidate, and if that candidate is not in the meridiem set
the verdict is InvalidMeridiem with the state unchanged — regardless
of segment count, digits or ranges, since the check comes first. -/
theorem claim6_meridiem_checked_first (st : Nat) (arg : List Char)
    (hcol : ':' ∈ arg.map Char.toUpper)
    (hend : ((splitCols (arg.map Char.toUpper)).getLastD []).drop 2 ∉ meridiems) :
    get_time st arg = (.invalidMeridiem, st) := by
  unfold get_time getTimeU
  rw [blockMatch_none_of_colon hcol]
  dsimp only
  rw [if_pos hcol]
  simp only [clockBranch]
  rw [if_neg hend]

/-- C6 witness: `claim6_meridiem_checked_first` applied to
`"12:59XM"` (candidate `"XM"`), a token that would pass every other
clock check. -/
theorem claim6_meridiem_checked_first_witness :
    get_time 23 (tok "12:59XM") = (.invalidMeridiem, 23) :=
  claim6_meridiem_checked_first 23 (tok "12:59XM") (by decide) (by decide)

theorem validateBlock_ne_missing :
    ∀ (gs : List (List Char × Char)) (tally : List Char),
      validateBlock gs tally ≠ .missingValues := by
  intro gs
  induction gs with
  | nil => intro tally; simp [validateBlock]
  | cons g rest ih =>
    intro tally
    obtain ⟨ds, u⟩ := g
    simp only [validateBlock]
    split_ifs <;> simp [ih]

theorem checkSegs_ne_missing :
    ∀ (vs : List (List Char)) (ls : List Nat), checkSegs vs ls ≠ .missingValues := by
  intro vs
  induction vs with
  | nil => intro ls; simp [checkSegs]
  | cons v rest ih =>
    intro ls
    cases ls with
    | nil => simp [checkSegs]
    | cons l ls' =>
      simp only [checkSegs]
      split_ifs <;> simp [ih]

/-- C10: the meridiem check precedes the segment-count check — the
five-segment token `"1:2:3:4:5XM"` is rejected with InvalidMeridiem,
not for its field count; every token containing a colon splits into at
least two segments; and the fewer-than-two arm of the count check is
unreachable: whenever `get_time` reports MissingValues the uppercased
token actually split into at least four segments. -/
theorem claim10_meridiem_before_count :
    get_time 23 (tok "1:2:3:4:5XM") = (.invalidMeridiem, 23) ∧
    (∀ l : List Char, ':' ∈ l → 2 ≤ (splitCols l).length) ∧
    (∀ (st : Nat) (arg : List Char), (get_time st arg).1 = Verdict.missingValues →
      4 ≤ (splitCols (arg.map Char.toUpper)).length) := by
  refine ⟨by decide, ?_, ?_⟩
  · intro l hl
    rw [length_splitCols]
    have : 0 < l.count ':' := List.count_pos_iff.mpr hl
    omega
  · intro st arg h
    unfold get_time getTimeU at h
    cases hb : blockMatch (arg.map Char.toUpper) with
    | some gs =>
      rw [hb] at h
      dsimp only at h
      exact absurd h (validateBlock_ne_missing gs [])
    | none =>
      rw [hb] at h
      dsimp only at h
      by_cases hcol : ':' ∈ arg.map Char.toUpper
      · rw [if_pos hcol] at h
        have hlen2 : 2 ≤ (splitCols (arg.map Char.toUpper)).length := by
          rw [length_splitCols]
          have : 0 < (arg.map Char.toUpper).count ':' := List.count_pos_iff.mpr hcol
          omega
        simp only [clockBranch] at h
        by_cases hm : ((splitCols (arg.map Char.toUpper)).getLastD []).drop 2 ∈ meridiems
        · rw [if_pos hm] at h
          by_cases hl :
              ((splitCols (arg.map Char.toUpper)).dropLast ++
                [((splitCols (arg.map Char.toUpper)).getLastD []).take 2]).length = 2 ∨
              ((splitCols (arg.map Char.toUpper)).dropLast ++
                [((splitCols (arg.map Char.toUpper)).getLastD []).take 2]).length = 3
          · rw [if_pos hl] at h
            exact absurd h (checkSegs_ne_missing _ _)
          · have hne := splitCols_ne_nil (arg.map Char.toUpper)
            have hdl : ((splitCols (arg.map Char.toUpper)).dropLast ++
                [((splitCols (arg.map Char.toUpper)).getLastD []).take 2]).length =
                (splitCols (arg.map Char.toUpper)).length := by
              rw [List.length_append, List.length_dropLast]
              have : 1 ≤ (splitCols (arg.map Char.toUpper)).length :=
                List.length_pos.mpr hne
              simp
              omega
            push_neg at hl
            omega
        · rw [if_neg hm] at h
          simp at h
      · rw [if_neg hcol] at h
        simp at h

/-- C10 witness: the quantified parts of `claim10_meridiem_before_count`
applied to `"1:2"` (two segments) and to `"1:2:3:4"`, a token on which
`get_time` does report MissingValues. -/
theorem claim10_meridiem_before_count_witness :
    2 ≤ (splitCols (tok "1:2")).length ∧
    4 ≤ (splitCols ((tok "1:2:3:4").map Char.toUpper)).length :=
  ⟨claim10_meridiem_before_count.2.1 (tok "1:2") (by decide),
    claim10_meridiem_before_count.2.2 23 (tok "1:2:3:4") (by decide)⟩

/-! ## Round trip: rendering block groups and parsing them back -/

theorem isUnitChar_cases {u : Char} (h : isUnitChar u = true) :
    u = 'H' ∨ u = 'M' ∨ u = 'D' ∨ u = 'S' := by
  have h2 : ((u = 'H' ∨ u = 'M') ∨ u = 'D') ∨ u = 'S' := by simpa [isUnitChar] using h
  tauto

theorem isUnitChar_not_digit {u : Char} (h : isUnitChar u = true) : u.isDigit = false := by
  rcases isUnitChar_cases h with rfl | rfl | rfl | rfl <;> decide

theorem isUnitChar_toUpper {u : Char} (h : isUnitChar u = true) : u.toUpper = u := by
  rcases isUnitChar_cases h with rfl | rfl | rfl | rfl <;> decide

theorem toUpper_of_good {c : Char} (h : goodChar c = true) : c.toUpper = c := by
  rcases Bool.or_eq_true_iff.mp (by simpa [goodChar] using h) with h | h
  · exact toUpper_of_isDigit h
  · exact isUnitChar_toUpper h

theorem parseGroup_render {ds : List Char} {u : Char} (rest : List Char)
    (h : groupWF (ds, u)) : parseGroup (ds ++ u :: rest) = some ((ds, u), rest) := by
  obtain ⟨hlen, hdig, hunit⟩ := h
  have hud : u.isDigit = false := isUnitChar_not_digit hunit
  rcases hlen with h1 | h2
  · obtain ⟨d, rfl⟩ : ∃ d, ds = [d] := by
      cases ds with
      | nil => simp at h1
      | cons d t =>
        cases t with
        | nil => exact ⟨d, rfl⟩
        | cons x xs => simp at h1
    have hd : d.isDigit = true := by simpa using hdig
    simp [parseGroup, hd, hud, hunit]
  · obtain ⟨d1, d2, rfl⟩ : ∃ d1 d2, ds = [d1, d2] := by
      cases ds with
      | nil => simp at h2
      | cons d1 t =>
        cases t with
        | nil => simp at h2
        | cons d2 xs =>
          cases xs with
          | nil => exact ⟨d1, d2, rfl⟩
          | cons y ys => simp at h2
    have hd1 : d1.isDigit = true := by
      simp at hdig
      exact hdig.1
    have hd2 : d2.isDigit = true := by
      simp at hdig
      exact hdig.2
    simp [parseGroup, hd1, hd2, hud, hunit]

theorem renderBlock_good {gs : List (List Char × Char)} (h : ∀ g ∈ gs, groupWF g) :
    ∀ c ∈ renderBlock gs, goodChar c = true := by
  induction gs with
  | nil => simp [renderBlock]
  | cons g rest ih =>
    obtain ⟨ds, u⟩ := g
    obtain ⟨_, hdig, hunit⟩ := h (ds, u) (by simp)
    intro c hc
    rw [renderBlock] at hc
    rcases List.mem_append.mp hc with hc | hc
    · simp [goodChar, List.all_eq_true.mp hdig c hc]
    · rcases List.mem_cons.mp hc with rfl | hc
      · simp [goodChar, hunit]
      · exact ih (fun g hg => h g (List.mem_cons_of_mem _ hg)) c hc

theorem renderBlock_ne_nil {gs : List (List Char × Char)} (hne : gs ≠ [])
    (h : ∀ g ∈ gs, groupWF g) : renderBlock gs ≠ [] := by
  cases gs with
  | nil => exact absurd rfl hne
  | cons g rest =>
    obtain ⟨ds, u⟩ := g
    obtain ⟨hlen, _, _⟩ := h (ds, u) (by simp)
    rw [renderBlock]
    cases ds with
    | nil => simp at hlen
    | cons d t => simp

theorem parseGroupsAux_render :
    ∀ (gs : List (List Char × Char)) (fuel : Nat), gs.length ≤ fuel →
      (∀ g ∈ gs, groupWF g) → parseGroupsAux fuel (renderBlock gs) = some gs := by
  intro gs
  induction gs with
  | nil => intro fuel _ _; cases fuel <;> simp [renderBlock, parseGroupsAux]
  | cons g rest ih =>
    intro fuel hlen hwf
    obtain ⟨ds, u⟩ := g
    cases fuel with
    | zero => simp at hlen
    | succ f =>
      have hg := hwf (ds, u) (by simp)
      have hp := parseGroup_render (renderBlock rest) hg
      rw [renderBlock]
      obtain ⟨d, ds', rfl⟩ : ∃ d ds', ds = d :: ds' := by
        rcases hg.1 with h1 | h2
        · cases ds with
          | nil => simp at h1
          | cons d t => exact ⟨d, t, rfl⟩
        · cases ds with
          | nil => simp at h2
          | cons d t => exact ⟨d, t, rfl⟩
      rw [List.cons_append] at hp ⊢
      simp only [parseGroupsAux]
      rw [hp]
      dsimp only
      rw [ih f (by simpa using hlen) (fun g hg => hwf g (List.mem_cons_of_mem _ hg))]

theorem blockMatch_render {gs : List (List Char × Char)} (hne : gs ≠ [])
    (hlen : gs.length ≤ 4) (hwf : ∀ g ∈ gs, groupWF g) :
    blockMatch (renderBlock gs) = some gs := by
  unfold blockMatch
  have hnl : ¬ (renderBlock gs).getLast? = some '\n' := by
    intro hl
    have hmem := List.mem_of_getLast?_eq_some hl
    have := renderBlock_good hwf _ hmem
    simp [goodChar, isUnitChar] at this
  rw [if_neg hnl]
  cases hr : renderBlock gs with
  | nil => exact absurd hr (renderBlock_ne_nil hne hwf)
  | cons x xs =>
    dsimp only
    rw [← hr, parseGroupsAux_render gs 4 hlen hwf]

/-- A rendered well-formed group list is taken by the block branch of
`get_time`, which validates exactly those groups. -/
theorem get_time_block (st : Nat) (gs : List (List Char × Char)) (hne : gs ≠ [])
    (hlen : gs.length ≤ 4) (hwf : ∀ g ∈ gs, groupWF g) :
    get_time st (renderBlock gs) = (validateBlock gs [], st) := by
  unfold get_time
  rw [map_toUpper_id (fun c hc => toUpper_of_good (renderBlock_good hwf c hc))]
  unfold getTimeU
  rw [blockMatch_render hne hlen hwf]

/-! ## The block validation loop -/

theorem validateBlock_valid :
    ∀ (gs : List (List Char × Char)) (tally : List Char),
      (gs.map Prod.snd).Nodup → (∀ g ∈ gs, g.2 ∉ tally) →
      (∀ g ∈ gs, digitsVal g.1 ≤ blockLimits g.2) →
      validateBlock gs tally = .valid := by
  intro gs
  induction gs with
  | nil => intro tally _ _ _; rfl
  | cons g rest ih =>
    intro tally hnd htal hmag
    obtain ⟨ds, u⟩ := g
    rw [List.map_cons, List.nodup_cons] at hnd
    have hm0 : digitsVal ds ≤ blockLimits u := hmag (ds, u) (by simp)
    rw [validateBlock, if_neg (htal (ds, u) (by simp)), if_neg (by omega)]
    refine ih (tally ++ [u]) hnd.2 ?_ ?_
    · intro g hg
      rw [List.mem_append, List.mem_singleton]
      push_neg
      refine ⟨htal g (List.mem_cons_of_mem _ hg), fun hgu => ?_⟩
      exact hnd.1 (List.mem_map.mpr ⟨g, hg, hgu⟩)
    · exact fun g hg => hmag g (List.mem_cons_of_mem _ hg)

theorem validateBlock_dup :
    ∀ (pre : List (List Char × Char)) (ds : List Char) (u : Char)
      (post : List (List Char × Char)) (tally : List Char),
      (∀ g ∈ pre, g.2 ∉ tally) → (pre.map Prod.snd).Nodup →
      (∀ g ∈ pre, digitsVal g.1 ≤ blockLimits g.2) →
      u ∈ tally ++ pre.map Prod.snd →
      validateBlock (pre ++ (ds, u) :: post) tally = .duplicateUnit := by
  intro pre
  induction pre with
  | nil =>
    intro ds u post tally _ _ _ hu
    simp only [List.map_nil, List.append_nil] at hu
    rw [List.nil_append, validateBlock, if_pos hu]
  | cons g pre' ih =>
    intro ds u post tally htal hnd hmag hu
    obtain ⟨ds0, u0⟩ := g
    rw [List.map_cons, List.nodup_cons] at hnd
    have hm0 : digitsVal ds0 ≤ blockLimits u0 := hmag (ds0, u0) (by simp)
    rw [List.cons_append, validateBlock, if_neg (htal (ds0, u0) (by simp)),
      if_neg (by omega)]
    apply ih ds u post (tally ++ [u0])
    · intro g hg
      rw [List.mem_append, List.mem_singleton]
      push_neg
      refine ⟨htal g (List.mem_cons_of_mem _ hg), fun hgu => ?_⟩
      exact hnd.1 (List.mem_map.mpr ⟨g, hg, hgu⟩)
    · exact hnd.2
    · exact fun g hg => hmag g (List.mem_cons_of_mem _ hg)
    · rw [List.map_cons] at hu
      rw [List.append_assoc, List.singleton_append]
      exact hu

theorem validateBlock_not_valid :
    ∀ (gs : List (List Char × Char)) (tally : List Char),
      (¬ (gs.map Prod.snd).Nodup ∨ ∃ g ∈ gs, g.2 ∈ tally) →
      validateBlock gs tally ≠ .valid := by
  intro gs
  induction gs with
  | nil =>
    intro tally h
    rcases h with h | ⟨g, hg, _⟩
    · simp at h
    · simp at hg
  | cons g rest ih =>
    intro tally h
    obtain ⟨ds, u⟩ := g
    rw [validateBlock]
    by_cases hu : u ∈ tally
    · rw [if_pos hu]
      decide
    · rw [if_neg hu]
      by_cases hm : digitsVal ds > blockLimits u
      · rw [if_pos hm]
        decide
      · rw [if_neg hm]
        apply ih (tally ++ [u])
        rcases h with h | ⟨g, hg, hgt⟩
        · rw [List.map_cons, List.nodup_cons] at h
          by_cases hdup : (rest.map Prod.snd).Nodup
          · have hum : (ds, u).2 ∈ rest.map Prod.snd := by
              by_contra hum
              exact h ⟨hum, hdup⟩
            obtain ⟨g, hg, hgu⟩ := List.mem_map.mp hum
            exact Or.inr ⟨g, hg, by rw [List.mem_append, List.mem_singleton]; right; exact hgu⟩
          · exact Or.inl hdup
        · rcases List.mem_cons.mp hg with heq | hg
          · subst heq
            exact absurd hgt hu
          · exact Or.inr ⟨g, hg, List.mem_append_left _ hgt⟩

/-- C3: every block token of one to four `⟨1–2 digits⟩⟨unit⟩` groups
with pairwise-distinct units from {D,H,M,S} and magnitudes within the
fixed limits (D ≤ 1, H ≤ 24, M ≤ 60, S ≤ 60) is classified as Block
(the anchored block pattern matches, extracting exactly those groups)
and judged Valid, with the state unchanged. -/
theorem claim3_block_valid (st : Nat) (gs : List (List Char × Char))
    (hne : gs ≠ []) (hlen : gs.length ≤ 4)
    (hwf : ∀ g ∈ gs, groupWF g)
    (hnd : (gs.map Prod.snd).Nodup)
    (hmag : ∀ g ∈ gs, digitsVal g.1 ≤ blockLimits g.2) :
    get_time st (renderBlock gs) = (.valid, st) ∧
    blockMatch (renderBlock gs) = some gs := by
  refine ⟨?_, blockMatch_render hne hlen hwf⟩
  rw [get_time_block st gs hne hlen hwf,
    validateBlock_valid gs [] hnd (by simp) hmag]

/-- C3 witness: `claim3_block_valid` applied to the groups of
`"1D24H60M60S"`, every unit at its limit. -/
theorem claim3_block_valid_witness :
    get_time 23 (tok "1D24H60M60S") = (.valid, 23) :=
  (claim3_block_valid 23
    [(['1'], 'D'), (['2', '4'], 'H'), (['6', '0'], 'M'), (['6', '0'], 'S')]
    (by decide) (by decide) (by decide) (by decide) (by decide)).1

/-- C4 counterexample: `"99H1D1D"` is a block token with a repeated
unit letter (D appears twice — the block pattern matches it with unit
list [H, D, D]), yet its verdict is the magnitude error for the first
field `99H`, not DuplicateUnit: fields are scanned left to right and
the over-limit field is hit before the duplicate is ever examined. -/
theorem claim4_counterexample :
    blockMatch (tok "99H1D1D") = some [(['9', '9'], 'H'), (['1'], 'D'), (['1'], 'D')] ∧
    ¬ (([(['9', '9'], 'H'), (['1'], 'D'), (['1'], 'D')].map Prod.snd).Nodup) ∧
    get_time 23 (tok "99H1D1D") = (Verdict.blockTooHigh, 23) ∧
    Verdict.blockTooHigh ≠ Verdict.duplicateUnit := by
  refine ⟨by decide, by decide, by decide, by decide⟩

/-- C4 (amended): a block token with a repeated unit letter is always
judged Invalid; fields are scanned left to right with a seen-unit set
and, within each field, the duplicate check precedes the magnitude
check — so when every field before the first repeated unit is within
its magnitude limit, the verdict is exactly DuplicateUnit (in
particular `"1S1S"` fails on duplication of S, not on magnitude, and
even `"1S99S"` with an over-limit duplicate field reports
DuplicateUnit); but a field over its limit that precedes the first
duplicate reports the magnitude error instead. -/
theorem claim4_duplicate_unit :
    (∀ (st : Nat) (pre post : List (List Char × Char)) (ds : List Char) (u : Char),
      (pre ++ (ds, u) :: post).length ≤ 4 →
      (∀ g ∈ pre ++ (ds, u) :: post, groupWF g) →
      (pre.map Prod.snd).Nodup →
      u ∈ pre.map Prod.snd →
      (∀ g ∈ pre, digitsVal g.1 ≤ blockLimits g.2) →
      get_time st (renderBlock (pre ++ (ds, u) :: post)) = (Verdict.duplicateUnit, st)) ∧
    (∀ (st : Nat) (gs : List (List Char × Char)),
      gs ≠ [] → gs.length ≤ 4 → (∀ g ∈ gs, groupWF g) →
      ¬ (gs.map Prod.snd).Nodup →
      (get_time st (renderBlock gs)).1 ≠ Verdict.valid) := by
  constructor
  · intro st pre post ds u hlen hwf hnd hu hmag
    rw [get_time_block st (pre ++ (ds, u) :: post) (by simp) hlen hwf,
      validateBlock_dup pre ds u post [] (by simp) hnd hmag (by simpa using hu)]
  · intro st gs hne hlen hwf hdup
    rw [get_time_block st gs hne hlen hwf]
    exact validateBlock_not_valid gs [] (Or.inl hdup)

/-- C4 witness: the amended claim applied to `"1S1S"` (duplicate with
in-range magnitudes → DuplicateUnit), to `"1S99S"` (the duplicate
field is also over-limit, yet the duplicate check fires first), and to
`"99H1D1D"` (repeated unit, verdict Invalid but not DuplicateUnit). -/
theorem claim4_duplicate_unit_witness :
    get_time 23 (tok "1S1S") = (Verdict.duplicateUnit, 23) ∧
    get_time 23 (tok "1S99S") = (Verdict.duplicateUnit, 23) ∧
    (get_time 23 (tok "99H1D1D")).1 ≠ Verdict.valid :=
  ⟨claim4_duplicate_unit.1 23 [(['1'], 'S')] [] ['1'] 'S' (by decide) (by decide)
      (by decide) (by decide) (by decide),
    claim4_duplicate_unit.1 23 [(['1'], 'S')] [] ['9', '9'] 'S' (by decide) (by decide)
      (by decide) (by decide) (by decide),
    claim4_duplicate_unit.2 23 [(['9', '9'], 'H'), (['1'], 'D'), (['1'], 'D')]
      (by decide) (by decide) (by decide) (by decide)⟩

/-- C7 witness: `claim7_always_returns_verdict` applied to the
unrecognised token `"hello"`. -/
theorem claim7_always_returns_verdict_witness :
    (get_time 23 (tok "hello")).1 ∈ [Verdict.valid, .notAFormat, .duplicateUnit,
      .blockTooHigh, .invalidMeridiem, .missingValues, .nonNumeric, .clockTooHigh] :=
  (claim7_always_returns_verdict 23 (tok "hello")).1

/-- C8 witness: `claim8_case_insensitive` applied to `"12:59am"`. -/
theorem claim8_case_insensitive_witness :
    get_time 23 (tok "12:59am") = get_time 23 ((tok "12:59am").map Char.toUpper) :=
  claim8_case_insensitive 23 (tok "12:59am")

end DelayBot
